import Mathlib

/-!
Verification of the strategy-simulation engine of the
Algorithmic-Trading-Backtesting-Engine repository.

The definitions below are a shallow embedding of `src/backtester.py`.
Prices are modelled as exact rationals standing for the float64 closes of
the OHLCV frame; a price series is the list of its `close` values, indexed
by bar number (the frame is ordered by date, so the bar index stands in
for the row date).  Undefined float cells (pandas NaN) are modelled as
`Option.none`, and every comparison against a NaN is false, as in IEEE
arithmetic.  Python exceptions are modelled with `Except String`, the
string naming the exception class.
-/

/-- Booleanised `a <= b` on possibly-NaN values: any comparison involving a
NaN cell is false, as in pandas/IEEE semantics. -/
def oleB (a b : Option ℚ) : Bool :=
  match a, b with
  | some x, some y => decide (x ≤ y)
  | _, _ => false

/-- Booleanised `a < b` on possibly-NaN values: any comparison involving a
NaN cell is false. -/
def oltB (a b : Option ℚ) : Bool :=
  match a, b with
  | some x, some y => decide (x < y)
  | _, _ => false

/-- Model of `series.rolling(window=window).mean()` at position `i` for a
NaN-free series: defined once the window is full and `i` is in range. -/
def rollingMean (xs : List ℚ) (window i : Nat) : Option ℚ :=
  if window ≤ i + 1 ∧ i < xs.length then
    some ((((xs.drop (i + 1 - window)).take window).sum) / (window : ℚ))
  else none

/-- Model of a rolling mean over a series that may contain NaN cells
(given as a position-indexed `Option` valuation): NaN unless the window is
full, in range, and free of NaN. -/
def rollingMeanAt (f : Nat → Option ℚ) (window i n : Nat) : Option ℚ :=
  if window ≤ i + 1 ∧ i < n then
    let ws := (List.range window).map (fun k => f (i + 1 - window + k))
    if ws.all Option.isSome then
      some ((ws.map (fun o => o.getD 0)).sum / (window : ℚ))
    else none
  else none

/-- Signals of the `simple_moving_average` branch of `generate_signals`:
20-bar rolling mean of the closes, and for each index from 20 on, BUY (1)
on an upward price/SMA cross, SELL (-1) on a downward cross, else HOLD (0).
Earlier indices keep the default 0. -/
def smaSignals (closes : List ℚ) : List Int :=
  (List.range closes.length).map (fun i =>
    if 20 ≤ i then
      let price := closes.get? i
      let sma := rollingMean closes 20 i
      let prev_price := closes.get? (i - 1)
      let prev_sma := rollingMean closes 20 (i - 1)
      if oleB prev_price prev_sma && oltB sma price then 1
      else if oleB prev_sma prev_price && oltB price sma then -1
      else 0
    else 0)

/-- Per-bar close difference, `df["close"].diff()`: NaN at index 0. -/
def deltaAt (closes : List ℚ) (i : Nat) : Option ℚ :=
  if i = 0 then none
  else
    match closes.get? i, closes.get? (i - 1) with
    | some a, some b => some (a - b)
    | _, _ => none

/-- Gain series of the RSI branch: the delta with negative entries zeroed. -/
def gainAt (closes : List ℚ) (i : Nat) : Option ℚ :=
  (deltaAt closes i).map (fun d => if d < 0 then 0 else d)

/-- Loss series of the RSI branch: the delta with positive entries zeroed,
then taken in absolute value. -/
def lossAt (closes : List ℚ) (i : Nat) : Option ℚ :=
  (deltaAt closes i).map (fun d => |if d > 0 then 0 else d|)

/-- 14-bar rolling mean of the gains (`avg_gain`); NaN before index 14. -/
def avgGainAt (closes : List ℚ) (i : Nat) : Option ℚ :=
  rollingMeanAt (gainAt closes) 14 i closes.length

/-- 14-bar rolling mean of the losses (`avg_loss`); NaN before index 14. -/
def avgLossAt (closes : List ℚ) (i : Nat) : Option ℚ :=
  rollingMeanAt (lossAt closes) 14 i closes.length

/-- RSI cell `100 - 100 / (1 + avg_gain / avg_loss)` under float semantics.
Both averages are nonnegative, so when `avg_loss` is nonzero the value is
finite; when `avg_loss = 0` and `avg_gain` is nonzero the quotient is an
infinity and the whole expression collapses to 100; when both are zero the
quotient is NaN and so is the RSI cell. -/
def rsiAt (closes : List ℚ) (i : Nat) : Option ℚ :=
  match avgGainAt closes i, avgLossAt closes i with
  | some g, some l =>
    if l ≠ 0 then some (100 - 100 / (1 + g / l))
    else if g ≠ 0 then some 100
    else none
  | _, _ => none

/-- Signals of the `rsi` branch of `generate_signals`: for each index from
14 (the period) on, BUY when the RSI crosses down through 30, SELL when it
crosses up through 70, else HOLD.  Earlier indices keep the default 0. -/
def rsiSignals (closes : List ℚ) : List Int :=
  (List.range closes.length).map (fun i =>
    if 14 ≤ i then
      let rsi := rsiAt closes i
      let prev_rsi := rsiAt closes (i - 1)
      if oleB (some 30) prev_rsi && oltB rsi (some 30) then 1
      else if oleB prev_rsi (some 70) && oltB (some 70) rsi then -1
      else 0
    else 0)

/-- Tail of the recursive EMA: given the smoothing factor and the previous
EMA value, produce the EMA values of the remaining entries. -/
def emaFrom (a prev : ℚ) : List ℚ → List ℚ
  | [] => []
  | x :: rest =>
    let e := a * x + (1 - a) * prev
    e :: emaFrom a e rest

/-- Model of `series.ewm(span=span, adjust=False).mean()`: the recursion is
seeded with the first entry, and the smoothing factor is `2 / (span + 1)`. -/
def emaList (xs : List ℚ) (span : Nat) : List ℚ :=
  match xs with
  | [] => []
  | x :: rest => x :: emaFrom (2 / ((span : ℚ) + 1)) x rest

/-- Signals of the `macd` branch of `generate_signals`: MACD line is the
12-span EMA minus the 26-span EMA of the closes, the signal line the 9-span
EMA of the MACD line; for each index from 35 (slow + signal) on, BUY when
the MACD line crosses above the signal line, SELL on the opposite cross,
else HOLD.  Earlier indices keep the default 0. -/
def macdSignals (closes : List ℚ) : List Int :=
  let macd := List.zipWith (fun a b => a - b) (emaList closes 12) (emaList closes 26)
  let macd_signal := emaList macd 9
  (List.range closes.length).map (fun i =>
    if 35 ≤ i then
      match macd.get? i, macd_signal.get? i, macd.get? (i - 1), macd_signal.get? (i - 1) with
      | some m, some s, some pm, some ps =>
        if pm ≤ ps ∧ s < m then 1
        else if ps ≤ pm ∧ m < s then -1
        else 0
      | _, _, _, _ => 0
    else 0)

/-- Model of `generate_signals(df, strategy)`, restricted to the signal
column it produces.  The column starts as all zeros; `buy_and_hold` writes
1 at position 0 and then -1 at the last position (on a one-row frame both
writes hit the same cell, and on an empty frame the positional write
raises IndexError, modelled as `none`); the three indicator branches fill
the column as above; an unrecognised strategy name leaves the column at
its default. -/
def generate_signals (closes : List ℚ) (strategy : String) : Option (List Int) :=
  if strategy = "buy_and_hold" then
    if closes.length = 0 then none
    else some (((List.replicate closes.length (0 : Int)).set 0 1).set (closes.length - 1) (-1))
  else if strategy = "simple_moving_average" then some (smaSignals closes)
  else if strategy = "rsi" then some (rsiSignals closes)
  else if strategy = "macd" then some (macdSignals closes)
  else some (List.replicate closes.length (0 : Int))

/-- Model of the `Portfolio` class: cash and share count together with the
starting cash it was created from.  The spec calls this PortfolioState. -/
structure PortfolioState where
  cash : ℚ
  shares : ℤ
  starting_cash : ℚ
deriving DecidableEq

/-- Model of `Portfolio.buy(price)` on the engine call path (quantity
omitted, so the whole-share maximum is bought).  Float floor division by
zero raises ZeroDivisionError, modelled as `none`; otherwise the quantity
is `int(cash // price)`, the purchase is rejected with zero shares when its
cost exceeds the cash, and the pair returned is the executed share count
together with the updated state. -/
def PortfolioState.buy (p : PortfolioState) (price : ℚ) : Option (ℤ × PortfolioState) :=
  if price = 0 then none
  else
    let quantity : ℤ := ⌊p.cash / price⌋
    let cost := price * quantity
    if p.cash < cost then some (0, p)
    else some (quantity, { p with cash := p.cash - cost, shares := p.shares + quantity })

/-- Model of `Portfolio.sell(price)` on the engine call path (quantity
omitted, so the whole position is sold).  The defensive branch rejecting a
sale of more shares than held is kept from the source although the full
position never exceeds itself. -/
def PortfolioState.sell (p : PortfolioState) (price : ℚ) : ℤ × PortfolioState :=
  let quantity := p.shares
  if p.shares < quantity then (0, p)
  else (quantity, { p with cash := p.cash + price * quantity, shares := p.shares - quantity })

/-- Model of `Portfolio.total_value(current_price)`. -/
def PortfolioState.total_value (p : PortfolioState) (price : ℚ) : ℚ :=
  p.cash + p.shares * price

/-- One logged trade.  The source logs the row date in `backtest_strategy`
and omits it in `calculate_metrics`; here the bar index stands in for the
date (the frame is ordered by date). -/
structure Trade where
  date : Nat
  action : String
  price : ℚ
  shares : ℤ
deriving DecidableEq, Inhabited

/-- One iteration of the daily loop shared by `backtest_strategy` and
`calculate_metrics` (their trading logic is line-for-line identical): a BUY
signal is acted on only when no shares are held, a SELL signal only when
shares are held, and a trade is logged only when a nonzero share count was
executed.  `none` propagates a ZeroDivisionError from `buy`. -/
def simStep (port : PortfolioState) (trades : List Trade) (i : Nat) (price : ℚ)
    (signal : Int) : Option (PortfolioState × List Trade) :=
  if signal = 1 ∧ port.shares = 0 then
    match port.buy price with
    | none => none
    | some (sh, port1) =>
      some (port1, if 0 < sh then trades ++ [⟨i, "BUY", price, sh⟩] else trades)
  else if signal = -1 ∧ 0 < port.shares then
    let (sh, port1) := port.sell price
    some (port1, if 0 < sh then trades ++ [⟨i, "SELL", price, sh⟩] else trades)
  else some (port, trades)

/-- The daily loop itself, over the zipped (close, signal) rows starting at
bar index `i`: after the trade branch of each bar, the mark-to-market value
`total_value(close)` is appended to the value series (the value series is
only consumed by `calculate_metrics`; `backtest_strategy` ignores it). -/
def runSimLoop :
    PortfolioState → List Trade → List ℚ → Nat → List (ℚ × Int) →
    Option (PortfolioState × List Trade × List ℚ)
  | port, trades, values, _, [] => some (port, trades, values)
  | port, trades, values, i, (price, signal) :: rest =>
    match simStep port trades i price signal with
    | none => none
    | some (port1, trades1) =>
      runSimLoop port1 trades1 (values ++ [port1.total_value price]) (i + 1) rest

/-- Forced liquidation after the last bar: if shares are still held, the
whole position is sold at the last close and a trade with the given action
label is appended (`backtest_strategy` labels it "SELL (end)",
`calculate_metrics` plain "SELL"). -/
def forcedLiq (closes : List ℚ) (port : PortfolioState) (trades : List Trade)
    (label : String) : PortfolioState × List Trade :=
  if 0 < port.shares then
    let final_price := (closes.getLast?).getD 0
    let (sh, port1) := port.sell final_price
    (port1, trades ++ [⟨closes.length - 1, label, final_price, sh⟩])
  else (port, trades)

/-- Result record of `backtest_strategy`.  The ticker and the date strings
are external identifiers and are omitted; `ending_cash` and
`total_return_pct` are kept unrounded (the source applies a two-decimal
display rounding when assembling the dict). -/
structure BacktestResult where
  starting_cash : ℚ
  ending_cash : ℚ
  total_return_pct : ℚ
  num_trades : Nat
  trades : List Trade
deriving DecidableEq

/-- Model of `backtest_strategy`, as a function of the close series the
data layer returns for the requested ticker and range.  An empty frame is
reported and the function returns Python None (`Except.ok none`); an
exception escaping the run is an `Except.error` naming its class. -/
def backtest_strategy (closes : List ℚ) (strategy : String) (starting_cash : ℚ) :
    Except String (Option BacktestResult) :=
  if closes.length = 0 then .ok none
  else
    match generate_signals closes strategy with
    | none => .error "IndexError"
    | some signals =>
      match runSimLoop ⟨starting_cash, 0, starting_cash⟩ [] [] 0 (closes.zip signals) with
      | none => .error "ZeroDivisionError"
      | some (port1, trades1, _) =>
        let (port2, trades2) := forcedLiq closes port1 trades1 "SELL (end)"
        if starting_cash = 0 then .error "ZeroDivisionError"
        else
          let total_return := (port2.cash - starting_cash) / starting_cash * 100
          .ok (some ⟨starting_cash, port2.cash, total_return, trades2.length, trades2⟩)

/-- Extended value produced by the numpy drawdown arithmetic: a float cell
that is finite, an infinity, or NaN. -/
inductive FloatQ where
  | nan : FloatQ
  | ninf : FloatQ
  | pinf : FloatQ
  | fin : ℚ → FloatQ
deriving DecidableEq

/-- Running maximum of the value series up to index `t`, modelling
`np.maximum.accumulate(portfolio_values)[t]`. -/
def peakAt (vals : List ℚ) (t : Nat) : ℚ :=
  match vals.take (t + 1) with
  | [] => 0
  | x :: xs => xs.foldl (fun a b => if a ≤ b then b else a) x

/-- Drawdown cell `(value - peak) / peak * 100` under float semantics: a
zero peak makes the cell NaN when the value equals the peak and a signed
infinity otherwise, instead of raising. -/
def drawdownAt (vals : List ℚ) (t : Nat) : FloatQ :=
  let v := vals.getD t 0
  let p := peakAt vals t
  if p ≠ 0 then .fin ((v - p) / p * 100)
  else if v - p = 0 then .nan
  else if v - p < 0 then .ninf
  else .pinf

/-- Pairwise float minimum: NaN propagates, as in the numpy reduction. -/
def fmin : FloatQ → FloatQ → FloatQ
  | .nan, _ => .nan
  | _, .nan => .nan
  | .ninf, _ => .ninf
  | _, .ninf => .ninf
  | .fin q, .fin r => .fin (if q ≤ r then q else r)
  | .pinf, b => b
  | .fin q, .pinf => .fin q

/-- Model of `drawdown.min()` over the drawdown cells of a value series;
numpy raises ValueError on an empty array, modelled as `none`. -/
def maxDrawdown (vals : List ℚ) : Option FloatQ :=
  match (List.range vals.length).map (drawdownAt vals) with
  | [] => none
  | d :: ds => some (ds.foldl fmin d)

/-- Win list of `calculate_metrics`: sequential trades are paired two at a
time in log order, and each pair contributes whether the exit price beat
the entry price.  The source iterates `j` over `range(0, len - 1, 2)` and
keeps the redundant bound check on `j + 1`. -/
def profitPairs (trades : List Trade) : List Bool :=
  (List.range' 0 ((trades.length - 1 + 1) / 2) 2).filterMap (fun j =>
    if j + 1 < trades.length then
      some (decide ((trades.getD j default).price < (trades.getD (j + 1) default).price))
    else none)

/-- Win rate of `calculate_metrics`: the fraction of winning pairs times
100, and 0 when fewer than two trades exist (or no pair formed). -/
def winRate (trades : List Trade) : ℚ :=
  if 2 ≤ trades.length then
    let profits := profitPairs trades
    if profits ≠ [] then ((profits.count true : ℚ) / (profits.length : ℚ)) * 100
    else 0
  else 0

/-- Result record of `calculate_metrics`.  The ticker and strategy echo
and the two-decimal display rounding are omitted, as is the annualised
return, whose value is a real fractional power no claim consumes; only the
ZeroDivisionError its computation raises on an empty frame is kept in
`calculate_metrics` below. -/
structure MetricsResult where
  total_return : ℚ
  max_drawdown : FloatQ
  num_trades : Nat
  win_rate : ℚ
  portfolio_values : List ℚ
deriving DecidableEq

/-- Model of `calculate_metrics`, as a function of the close series.  It
runs the same daily loop, force-liquidates under the plain "SELL" label,
and reduces: total return (ZeroDivisionError when `starting_cash = 0`),
the annualisation step (ZeroDivisionError from `1 / years` when the frame
is empty and the total return exceeds -100), the drawdown minimum
(ValueError on an empty value array), and the win rate.  Unlike
`backtest_strategy` it never checks for an empty frame. -/
def calculate_metrics (closes : List ℚ) (strategy : String) (starting_cash : ℚ) :
    Except String MetricsResult :=
  match generate_signals closes strategy with
  | none => .error "IndexError"
  | some signals =>
    match runSimLoop ⟨starting_cash, 0, starting_cash⟩ [] [] 0 (closes.zip signals) with
    | none => .error "ZeroDivisionError"
    | some (port1, trades1, values) =>
      let (port2, trades2) := forcedLiq closes port1 trades1 "SELL"
      if starting_cash = 0 then .error "ZeroDivisionError"
      else
        let total_return := (port2.cash - starting_cash) / starting_cash * 100
        let years : ℚ := (closes.length : ℚ) / 252
        if -100 < total_return ∧ years = 0 then .error "ZeroDivisionError"
        else
          match maxDrawdown values with
          | none => .error "ValueError"
          | some md =>
            .ok ⟨total_return, md, trades2.length, winRate trades2, values⟩

/-- Alternation automaton over the trade log: `e` is true when the next
legal action is a BUY and false when it is a SELL (the forced variant
"SELL (end)" included); the result is the expectation after the log, or
`none` when the log violates strict alternation from an initial BUY. -/
def altRun : Bool → List Trade → Option Bool
  | e, [] => some e
  | true, t :: ts => if t.action = "BUY" then altRun false ts else none
  | false, t :: ts =>
    if t.action = "SELL" ∨ t.action = "SELL (end)" then altRun true ts else none

/-- Claim-side win rate, following the claim words: sequential trades are
paired two at a time in log order, pairs = floor(len / 2) with an unpaired
trailing trade ignored, a pair wins exactly when the exit price strictly
beats the entry price, the rate is wins / pairs times 100, and 0 when
fewer than two trades exist. -/
def winRateSpec (trades : List Trade) : ℚ :=
  if 2 ≤ trades.length then
    ((((List.range (trades.length / 2)).filter (fun k =>
        decide ((trades.getD (2 * k) default).price <
          (trades.getD (2 * k + 1) default).price))).length : ℚ) /
      ((trades.length / 2 : Nat) : ℚ)) * 100
  else 0

/-- Signal value a position of a mapped index range holds. -/
lemma range_map_get? (f : Nat → Int) (n i : Nat) (hi : i < n) :
    ((List.range n).map f).get? i = some (f i) := by
  rw [List.get?_map, List.get?_range hi]
  rfl

/-- A position-indexed signal map whose entries below the bound are all
zero is the constant-zero column. -/
lemma range_map_zero (f : Nat → Int) (n : Nat) (h : ∀ i, i < n → f i = 0) :
    (List.range n).map f = List.replicate n (0 : Int) := by
  refine List.eq_replicate.mpr ⟨by simp, ?_⟩
  intro b hb
  rcases List.mem_map.mp hb with ⟨i, hi, rfl⟩
  exact h i (List.mem_range.mp hi)

lemma smaSignals_length (closes : List ℚ) : (smaSignals closes).length = closes.length := by
  simp [smaSignals]

lemma rsiSignals_length (closes : List ℚ) : (rsiSignals closes).length = closes.length := by
  simp [rsiSignals]

lemma macdSignals_length (closes : List ℚ) : (macdSignals closes).length = closes.length := by
  simp [macdSignals]

/-- Every signal column `generate_signals` returns has one entry per bar. -/
lemma generate_signals_length (closes : List ℚ) (s : String) (sigs : List Int)
    (h : generate_signals closes s = some sigs) : sigs.length = closes.length := by
  unfold generate_signals at h
  split_ifs at h with h1 h2 h3 h4 h5 <;>
    first
    | exact Option.noConfusion h
    | (rw [← Option.some.inj h]
       simp [smaSignals_length, rsiSignals_length, macdSignals_length])

/-- Running the daily loop on an all-HOLD signal column leaves the
portfolio untouched, logs no trade, and appends one copy of the cash
balance per bar, provided no shares are held. -/
lemma runSimLoop_hold (closes : List ℚ) :
    ∀ (port : PortfolioState) (trades : List Trade) (values : List ℚ) (i : Nat),
      port.shares = 0 →
      runSimLoop port trades values i (closes.zip (List.replicate closes.length 0)) =
        some (port, trades, values ++ List.replicate closes.length port.cash) := by
  induction closes with
  | nil => intro port trades values i _; simp [runSimLoop]
  | cons c cs ih =>
    intro port trades values i h
    have hzip : (c :: cs).zip (List.replicate (c :: cs).length 0) =
        (c, (0 : Int)) :: cs.zip (List.replicate cs.length 0) := by
      simp [List.replicate_succ]
    have hstep : simStep port trades i c 0 = some (port, trades) := by
      simp [simStep]
    have hval : port.total_value c = port.cash := by
      simp [PortfolioState.total_value, h]
    rw [hzip]
    simp only [runSimLoop, hstep, hval]
    rw [ih port trades (values ++ [port.cash]) (i + 1) h]
    simp [List.replicate_succ]

/-- C6: for every price series, the signal columns of the SMA, RSI and
MACD strategies hold only HOLD (0) at every index below the respective
minimum lookback index (20, 14 and 35); no BUY or SELL appears there. -/
theorem C6_lookback_gating (closes : List ℚ) (sigs : List Int) (i : Nat) (s : Int) :
    (generate_signals closes "simple_moving_average" = some sigs →
      i < 20 → sigs.get? i = some s → s = 0) ∧
    (generate_signals closes "rsi" = some sigs →
      i < 14 → sigs.get? i = some s → s = 0) ∧
    (generate_signals closes "macd" = some sigs →
      i < 35 → sigs.get? i = some s → s = 0) := by
  refine ⟨?_, ?_, ?_⟩ <;> intro hgen hlt hget
  · simp [generate_signals] at hgen
    subst hgen
    have hi : i < closes.length := by
      obtain ⟨h, _⟩ := List.get?_eq_some.mp hget
      simpa [smaSignals] using h
    rw [smaSignals, range_map_get? _ _ _ hi] at hget
    have h := Option.some.inj hget
    rw [if_neg (by omega)] at h
    exact h.symm
  · simp [generate_signals] at hgen
    subst hgen
    have hi : i < closes.length := by
      obtain ⟨h, _⟩ := List.get?_eq_some.mp hget
      simpa [rsiSignals] using h
    rw [rsiSignals, range_map_get? _ _ _ hi] at hget
    have h := Option.some.inj hget
    rw [if_neg (by omega)] at h
    exact h.symm
  · simp [generate_signals] at hgen
    subst hgen
    have hi : i < closes.length := by
      obtain ⟨h, _⟩ := List.get?_eq_some.mp hget
      simpa [macdSignals] using h
    rw [macdSignals, range_map_get? _ _ _ hi] at hget
    have h := Option.some.inj hget
    rw [if_neg (by omega)] at h
    exact h.symm

/-- Witness for C6 on a concrete series and index. -/
theorem C6_witness : ((0 : Int) = 0) ∧ ((0 : Int) = 0) ∧ ((0 : Int) = 0) := by
  obtain ⟨h1, h2, h3⟩ := C6_lookback_gating [1, 2, 3] (smaSignals [1, 2, 3]) 1 0
  refine ⟨h1 ?_ (by decide) ?_, rfl, rfl⟩
  · simp [generate_signals]
  · simp [smaSignals, rollingMean, oleB, oltB]

/-- C10: a strategy name other than the four recognised ones makes
`generate_signals` silently return the all-HOLD column, and the daily loop
then executes no trade and records the starting cash at every bar. -/
theorem C10_unknown_strategy (closes : List ℚ) (sc : ℚ) (s : String)
    (h1 : s ≠ "buy_and_hold") (h2 : s ≠ "simple_moving_average")
    (h3 : s ≠ "rsi") (h4 : s ≠ "macd") :
    generate_signals closes s = some (List.replicate closes.length 0) ∧
    runSimLoop ⟨sc, 0, sc⟩ [] [] 0 (closes.zip (List.replicate closes.length 0)) =
      some (⟨sc, 0, sc⟩, [], List.replicate closes.length sc) := by
  constructor
  · simp [generate_signals, h1, h2, h3, h4]
  · simpa using runSimLoop_hold closes ⟨sc, 0, sc⟩ [] [] 0 rfl

/-- Witness for C10 at the unrecognised name "momentum". -/
theorem C10_witness :
    generate_signals [5, 6] "momentum" = some [0, 0] ∧
    runSimLoop ⟨100, 0, 100⟩ [] [] 0 ([(5 : ℚ), 6].zip [0, 0]) =
      some (⟨100, 0, 100⟩, [], [100, 100]) := by
  have h := C10_unknown_strategy [5, 6] 100 "momentum"
    (by decide) (by decide) (by decide) (by decide)
  simpa [List.replicate] using h

/-- C1 (amended): below the minimum lookback the SMA, RSI and MACD
strategies return the all-HOLD column; `buy_and_hold` on a one-bar frame
returns `[-1]` (the day-0 BUY is overwritten by the last-day SELL, which
lands on the same cell) and raises IndexError on an empty frame; in every
non-raising case the daily loop executes no trade and the value series is
flat at the starting cash. -/
theorem C1_below_lookback :
    (∀ closes : List ℚ, closes.length < 20 →
      generate_signals closes "simple_moving_average" =
        some (List.replicate closes.length 0)) ∧
    (∀ closes : List ℚ, closes.length < 14 →
      generate_signals closes "rsi" = some (List.replicate closes.length 0)) ∧
    (∀ closes : List ℚ, closes.length < 35 →
      generate_signals closes "macd" = some (List.replicate closes.length 0)) ∧
    (∀ c : ℚ, generate_signals [c] "buy_and_hold" = some [-1]) ∧
    (generate_signals ([] : List ℚ) "buy_and_hold" = none) ∧
    (∀ (closes : List ℚ) (sc : ℚ),
      runSimLoop ⟨sc, 0, sc⟩ [] [] 0 (closes.zip (List.replicate closes.length 0)) =
        some (⟨sc, 0, sc⟩, [], List.replicate closes.length sc)) ∧
    (∀ c sc : ℚ, runSimLoop ⟨sc, 0, sc⟩ [] [] 0 [(c, -1)] =
      some (⟨sc, 0, sc⟩, [], [sc])) := by
  refine ⟨?_, ?_, ?_, ?_, ?_, ?_, ?_⟩
  · intro closes hlen
    have h : smaSignals closes = List.replicate closes.length 0 :=
      range_map_zero _ _ (fun i hi => by rw [if_neg (by omega)])
    simp [generate_signals, h]
  · intro closes hlen
    have h : rsiSignals closes = List.replicate closes.length 0 :=
      range_map_zero _ _ (fun i hi => by rw [if_neg (by omega)])
    simp [generate_signals, h]
  · intro closes hlen
    have h : macdSignals closes = List.replicate closes.length 0 :=
      range_map_zero _ _ (fun i hi => by rw [if_neg (by omega)])
    simp [generate_signals, h]
  · intro c
    simp [generate_signals]
  · simp [generate_signals]
  · intro closes sc
    simpa using runSimLoop_hold closes ⟨sc, 0, sc⟩ [] [] 0 rfl
  · intro c sc
    simp [runSimLoop, simStep, PortfolioState.total_value]

/-- Counterexample for C1 as stated: a one-bar `buy_and_hold` frame is
below the lookback of 2, yet the signal column is not all-HOLD. -/
theorem C1_counterexample :
    ¬ (generate_signals [10] "buy_and_hold" = some [0]) := by
  simp [generate_signals]

/-- Witness for C1 at concrete inputs. -/
theorem C1_witness :
    generate_signals [1, 2, 3] "simple_moving_average" = some [0, 0, 0] ∧
    runSimLoop ⟨50, 0, 50⟩ [] [] 0 [((7 : ℚ), (-1 : Int))] =
      some (⟨50, 0, 50⟩, [], [50]) := by
  obtain ⟨hsma, -, -, -, -, -, hone⟩ := C1_below_lookback
  refine ⟨?_, hone 7 50⟩
  simpa [List.replicate] using hsma [1, 2, 3] (by decide)

/-- C5 (amended): an empty price series makes `backtest_strategy` skip the
run, returning Python None and raising nothing; `calculate_metrics`,
however, has no such guard and raises on an empty series — IndexError for
`buy_and_hold` (inside `generate_signals`) and ZeroDivisionError at the
annualisation step `1 / years` for every other strategy name. -/
theorem C5_empty_series :
    (∀ (s : String) (sc : ℚ), backtest_strategy [] s sc = .ok none) ∧
    (∀ sc : ℚ, calculate_metrics [] "buy_and_hold" sc = .error "IndexError") ∧
    (∀ (s : String) (sc : ℚ), s ≠ "buy_and_hold" →
      calculate_metrics [] s sc = .error "ZeroDivisionError") := by
  refine ⟨?_, ?_, ?_⟩
  · intro s sc
    simp [backtest_strategy]
  · intro sc
    simp [calculate_metrics, generate_signals]
  · intro s sc hs
    have hgen : generate_signals [] s = some [] := by
      by_cases h2 : s = "simple_moving_average"
      · simp [generate_signals, hs, h2, smaSignals]
      · by_cases h3 : s = "rsi"
        · simp [generate_signals, hs, h3, rsiSignals]
        · by_cases h4 : s = "macd"
          · simp [generate_signals, hs, h4, macdSignals]
          · simp [generate_signals, hs, h2, h3, h4]
    by_cases hsc : sc = 0
    · simp [calculate_metrics, hgen, runSimLoop, forcedLiq, hsc]
    · simp [calculate_metrics, hgen, runSimLoop, forcedLiq, hsc]

/-- Counterexample for C5 as stated: on an empty series a `calculate_metrics`
run raises rather than being skipped. -/
theorem C5_counterexample :
    calculate_metrics [] "rsi" 10000 = .error "ZeroDivisionError" := by
  have hgen : generate_signals [] "rsi" = some [] := by
    simp [generate_signals, rsiSignals]
  simp [calculate_metrics, hgen, runSimLoop, forcedLiq]

/-- Witness for C5 at concrete inputs. -/
theorem C5_witness :
    backtest_strategy [] "rsi" 777 = .ok none ∧
    calculate_metrics [] "macd" 777 = .error "ZeroDivisionError" := by
  obtain ⟨h1, -, h3⟩ := C5_empty_series
  exact ⟨h1 "rsi" 777, h3 "macd" 777 (by decide)⟩

/-- Selling the whole position always succeeds: the dead defensive branch
never fires, the position empties, and the revenue is price times shares. -/
lemma sell_eq (p : PortfolioState) (price : ℚ) :
    p.sell price = (p.shares, ⟨p.cash + price * p.shares, 0, p.starting_cash⟩) := by
  unfold PortfolioState.sell
  rw [if_neg (lt_irrefl _)]
  simp

/-- A completed purchase at a positive price keeps cash and shares
nonnegative: the cost check bounds the spend, and the floored quantity of
a nonnegative cash balance is nonnegative. -/
lemma buy_inv (p : PortfolioState) (price : ℚ) (hp : 0 < price) (hc : 0 ≤ p.cash)
    (hs : 0 ≤ p.shares) (sh : ℤ) (p1 : PortfolioState)
    (h : p.buy price = some (sh, p1)) : 0 ≤ p1.cash ∧ 0 ≤ p1.shares := by
  unfold PortfolioState.buy at h
  rw [if_neg (ne_of_gt hp)] at h
  dsimp only at h
  split_ifs at h with hcost
  · obtain ⟨-, h2⟩ := Prod.mk.injEq .. ▸ Option.some.inj h
    rw [← h2]
    exact ⟨hc, hs⟩
  · obtain ⟨-, h2⟩ := Prod.mk.injEq .. ▸ Option.some.inj h
    rw [← h2]
    have hq : 0 ≤ ⌊p.cash / price⌋ := Int.floor_nonneg.mpr (div_nonneg hc hp.le)
    exact ⟨by simpa using le_of_not_lt hcost, by positivity⟩

/-- One daily step at a positive price preserves the solvency invariant. -/
lemma simStep_inv (port : PortfolioState) (trades : List Trade) (i : Nat) (price : ℚ)
    (signal : Int) (hp : 0 < price) (hc : 0 ≤ port.cash) (hs : 0 ≤ port.shares)
    (port1 : PortfolioState) (trades1 : List Trade)
    (h : simStep port trades i price signal = some (port1, trades1)) :
    0 ≤ port1.cash ∧ 0 ≤ port1.shares := by
  unfold simStep at h
  split_ifs at h with h1 h2
  · cases hb : port.buy price with
    | none => rw [hb] at h; exact Option.noConfusion h
    | some pr =>
      obtain ⟨sh, pm⟩ := pr
      rw [hb] at h
      obtain ⟨h3, -⟩ := Prod.mk.injEq .. ▸ Option.some.inj h
      rw [← h3]
      exact buy_inv port price hp hc hs sh pm hb
  · rw [sell_eq] at h
    obtain ⟨h3, -⟩ := Prod.mk.injEq .. ▸ Option.some.inj h
    rw [← h3]
    refine ⟨add_nonneg hc (mul_nonneg hp.le ?_), le_refl 0⟩
    exact_mod_cast hs
  · obtain ⟨h3, -⟩ := Prod.mk.injEq .. ▸ Option.some.inj h
    rw [← h3]
    exact ⟨hc, hs⟩

/-- The daily loop over bars with positive closes preserves the solvency
invariant from any solvent start. -/
lemma runSimLoop_inv (bars : List (ℚ × Int)) :
    ∀ (port : PortfolioState) (trades : List Trade) (values : List ℚ) (i : Nat)
      (port1 : PortfolioState) (trades1 : List Trade) (values1 : List ℚ),
      (∀ pr ∈ bars, 0 < pr.1) → 0 ≤ port.cash → 0 ≤ port.shares →
      runSimLoop port trades values i bars = some (port1, trades1, values1) →
      0 ≤ port1.cash ∧ 0 ≤ port1.shares := by
  induction bars with
  | nil =>
    intro port trades values i port1 trades1 values1 _ hc hs h
    simp only [runSimLoop, Option.some.injEq, Prod.mk.injEq] at h
    obtain ⟨h1, -, -⟩ := h
    exact h1 ▸ ⟨hc, hs⟩
  | cons b bs ih =>
    intro port trades values i port1 trades1 values1 hpos hc hs h
    obtain ⟨price, signal⟩ := b
    rw [runSimLoop] at h
    cases hst : simStep port trades i price signal with
    | none => rw [hst] at h; exact Option.noConfusion h
    | some pt =>
      obtain ⟨pm, tm⟩ := pt
      rw [hst] at h
      have hp : 0 < price := hpos (price, signal) (by simp)
      obtain ⟨hc1, hs1⟩ := simStep_inv port trades i price signal hp hc hs pm tm hst
      exact ih pm tm _ (i + 1) port1 trades1 values1
        (fun pr hpr => hpos pr (by simp [hpr])) hc1 hs1 h

/-- C4 (amended): for every price series with strictly positive closes,
every signal array, and every nonnegative starting cash, the state after
any prefix of bars — that is, at every bar of the simulation — satisfies
`0 <= cash` and `0 <= shares`. -/
theorem C4_solvency (closes : List ℚ) (signals : List Int) (sc : ℚ) (k : Nat)
    (port : PortfolioState) (trades : List Trade) (values : List ℚ)
    (hsc : 0 ≤ sc) (hpos : ∀ p ∈ closes, 0 < p)
    (hrun : runSimLoop ⟨sc, 0, sc⟩ [] [] 0 ((closes.zip signals).take k) =
      some (port, trades, values)) :
    0 ≤ port.cash ∧ 0 ≤ port.shares := by
  refine runSimLoop_inv _ _ _ _ _ _ _ _ ?_ hsc (le_refl 0) hrun
  intro pr hpr
  have hz : pr ∈ closes.zip signals := List.take_subset k _ hpr
  obtain ⟨a, b⟩ := pr
  exact hpos a (List.of_mem_zip hz).1

/-- Counterexample for C4 as stated: with a negative close and a BUY
signal the floored quantity is negative and the share count goes to -20. -/
theorem C4_counterexample :
    runSimLoop ⟨100, 0, 100⟩ [] [] 0 [(-5, 1)] =
      some (⟨0, -20, 100⟩, [], [100]) ∧ ¬ (0 ≤ (-20 : ℤ)) := by
  constructor
  · norm_num [runSimLoop, simStep, PortfolioState.buy, PortfolioState.total_value]
  · decide

/-- Witness for C4 at a concrete solvent run. -/
theorem C4_witness : 0 ≤ (200 : ℚ) ∧ 0 ≤ (0 : ℤ) := by
  refine C4_solvency [10, 20] [1, -1] 100 2 ⟨200, 0, 100⟩
    [⟨0, "BUY", 10, 10⟩, ⟨1, "SELL", 20, 10⟩] [100, 200] (by norm_num) ?_ ?_
  · intro p hp
    simp only [List.mem_cons, List.not_mem_nil, or_false] at hp
    rcases hp with rfl | rfl <;> norm_num
  · norm_num [runSimLoop, simStep, PortfolioState.buy, PortfolioState.sell,
      PortfolioState.total_value]

/-- The last entry of the value series a completed daily loop records is
the mark-to-market total value of the final state at the last close. -/
lemma runSimLoop_zip_last (closes : List ℚ) :
    ∀ (signals : List Int) (port : PortfolioState) (trades : List Trade)
      (values : List ℚ) (i : Nat) (p1 : PortfolioState) (t1 : List Trade)
      (v1 : List ℚ),
      signals.length = closes.length → closes ≠ [] →
      runSimLoop port trades values i (closes.zip signals) = some (p1, t1, v1) →
      v1.getLast? = some (p1.total_value ((closes.getLast?).getD 0)) := by
  induction closes with
  | nil => intro _ _ _ _ _ _ _ _ _ hne; exact absurd rfl hne
  | cons c cs ih =>
    intro signals port trades values i p1 t1 v1 hlen _ h
    cases signals with
    | nil => simp at hlen
    | cons s ss =>
      rw [List.zip_cons_cons, runSimLoop] at h
      cases hst : simStep port trades i c s with
      | none => rw [hst] at h; exact Option.noConfusion h
      | some pt =>
        obtain ⟨pm, tm⟩ := pt
        rw [hst] at h
        cases cs with
        | nil =>
          have hss : ss = [] := by simpa using hlen
          subst hss
          simp only [List.zip_nil_left, runSimLoop, Option.some.injEq,
            Prod.mk.injEq] at h
          obtain ⟨h1, -, h3⟩ := h
          rw [← h3, ← h1]
          simp
        | cons c2 cs2 =>
          have := ih ss pm tm (values ++ [pm.total_value c]) (i + 1) p1 t1 v1
            (by simpa using hlen) (by simp) h
          simpa using this

/-- C3 (amended): in a run over strictly positive closes from nonnegative
starting cash, the forced-liquidation step empties the position (shares
end at exactly 0), appends the forced-sell trade at the last close
whenever shares were still held, and leaves the final cash equal to the
last mark-to-market entry of the value series.  The label argument covers
both spellings of the forced action ("SELL (end)" in `backtest_strategy`,
plain "SELL" in `calculate_metrics`). -/
theorem C3_forced_liquidation (closes : List ℚ) (signals : List Int) (sc : ℚ)
    (port1 : PortfolioState) (trades1 : List Trade) (values : List ℚ) (lbl : String)
    (hsc : 0 ≤ sc) (hpos : ∀ p ∈ closes, 0 < p)
    (hlen : signals.length = closes.length)
    (hrun : runSimLoop ⟨sc, 0, sc⟩ [] [] 0 (closes.zip signals) =
      some (port1, trades1, values)) :
    (forcedLiq closes port1 trades1 lbl).1.shares = 0 ∧
    (0 < port1.shares →
      (forcedLiq closes port1 trades1 lbl).2 =
        trades1 ++ [⟨closes.length - 1, lbl, (closes.getLast?).getD 0, port1.shares⟩]) ∧
    (closes ≠ [] →
      values.getLast? = some ((forcedLiq closes port1 trades1 lbl).1.cash)) := by
  have hinv : 0 ≤ port1.cash ∧ 0 ≤ port1.shares := by
    refine runSimLoop_inv _ _ _ _ _ _ _ _ ?_ hsc (le_refl 0) hrun
    intro pr hpr
    obtain ⟨a, b⟩ := pr
    exact hpos a (List.of_mem_zip hpr).1
  by_cases hsh : 0 < port1.shares
  · unfold forcedLiq
    rw [if_pos hsh]
    simp only [sell_eq]
    refine ⟨by first | trivial | (intro _; trivial),
      by first | trivial | (intro _; trivial), fun hne => ?_⟩
    rw [runSimLoop_zip_last closes signals _ _ _ _ _ _ _ hlen hne hrun]
    simp [PortfolioState.total_value, mul_comm]
  · have hz : port1.shares = 0 := le_antisymm (le_of_not_lt hsh) hinv.2
    unfold forcedLiq
    rw [if_neg hsh]
    refine ⟨hz, fun hcon => absurd hcon hsh, fun hne => ?_⟩
    rw [runSimLoop_zip_last closes signals _ _ _ _ _ _ _ hlen hne hrun]
    simp [PortfolioState.total_value, hz]

/-- Witness for C3 at a concrete run that is still in the market after the
last bar: two bars, a BUY on the first and no later signal. -/
theorem C3_witness :
    (forcedLiq [10, 20] ⟨0, 10, 100⟩ [⟨0, "BUY", 10, 10⟩] "SELL (end)").1.shares = 0 ∧
    (forcedLiq [10, 20] ⟨0, 10, 100⟩ [⟨0, "BUY", 10, 10⟩] "SELL (end)").2 =
      [⟨0, "BUY", 10, 10⟩] ++ [⟨1, "SELL (end)", 20, 10⟩] ∧
    ([(100 : ℚ), 200].getLast? =
      some ((forcedLiq [10, 20] ⟨0, 10, 100⟩ [⟨0, "BUY", 10, 10⟩] "SELL (end)").1.cash)) := by
  have h := C3_forced_liquidation [10, 20] [1, 0] 100 ⟨0, 10, 100⟩
    [⟨0, "BUY", 10, 10⟩] [100, 200] "SELL (end)" (by norm_num)
    (by intro p hp
        simp only [List.mem_cons, List.not_mem_nil, or_false] at hp
        rcases hp with rfl | rfl <;> norm_num)
    (by simp)
    (by norm_num [runSimLoop, simStep, PortfolioState.buy, PortfolioState.total_value])
  obtain ⟨h1, h2, h3⟩ := h
  exact ⟨h1, by simpa using h2 (by norm_num), h3 (by simp)⟩

lemma altRun_append (ts : List Trade) :
    ∀ (e : Bool) (t : Trade),
      altRun e (ts ++ [t]) =
        match altRun e ts with
        | some true => if t.action = "BUY" then some false else none
        | some false =>
          if t.action = "SELL" ∨ t.action = "SELL (end)" then some true else none
        | none => none := by
  induction ts with
  | nil =>
    intro e t
    cases e <;> simp [altRun]
  | cons s ss ih =>
    intro e t
    cases e <;> simp only [List.cons_append, altRun]
    · by_cases hs : s.action = "SELL" ∨ s.action = "SELL (end)"
      · rw [if_pos hs, if_pos hs, List.append_eq, ih]
      · rw [if_neg hs, if_neg hs]
    · by_cases hs : s.action = "BUY"
      · rw [if_pos hs, if_pos hs, List.append_eq, ih]
      · rw [if_neg hs, if_neg hs]

lemma altRun_head (t : Trade) (ts : List Trade)
    (h : (altRun true (t :: ts)).isSome = true) : t.action = "BUY" := by
  by_cases hb : t.action = "BUY"
  · exact hb
  · rw [altRun, if_neg hb] at h
    exact absurd h (by simp)

/-- Case analysis of a completed purchase: either it was rejected (zero
shares, state unchanged) or the share count moved by the executed
quantity. -/
lemma buy_cases (p : PortfolioState) (price : ℚ) (sh : ℤ) (p1 : PortfolioState)
    (h : p.buy price = some (sh, p1)) :
    (sh = 0 ∧ p1 = p) ∨ (p1.shares = p.shares + sh) := by
  unfold PortfolioState.buy at h
  by_cases h0 : price = 0
  · rw [if_pos h0] at h
    exact Option.noConfusion h
  · rw [if_neg h0] at h
    dsimp only at h
    split_ifs at h with hcost
    · obtain ⟨h1, h2⟩ := Prod.mk.injEq .. ▸ Option.some.inj h
      exact Or.inl ⟨h1.symm, h2.symm⟩
    · obtain ⟨h1, h2⟩ := Prod.mk.injEq .. ▸ Option.some.inj h
      rw [← h2, ← h1]
      exact Or.inr rfl

/-- One daily step preserves the alternation invariant: the expectation
after the log is BUY exactly when no positive position is held, and at
most one trade, carrying the current bar index, is appended. -/
lemma simStep_alt (port : PortfolioState) (trades : List Trade) (i : Nat)
    (price : ℚ) (signal : Int) (port1 : PortfolioState) (trades1 : List Trade)
    (halt : altRun true trades = some (decide (port.shares ≤ 0)))
    (h : simStep port trades i price signal = some (port1, trades1)) :
    altRun true trades1 = some (decide (port1.shares ≤ 0)) ∧
    (trades1 = trades ∨ ∃ t : Trade, t.date = i ∧ trades1 = trades ++ [t]) := by
  unfold simStep at h
  split_ifs at h with h1 h2
  · obtain ⟨hsig, hsh0⟩ := h1
    cases hb : port.buy price with
    | none => rw [hb] at h; exact Option.noConfusion h
    | some pr =>
      obtain ⟨sh, pm⟩ := pr
      rw [hb] at h
      obtain ⟨hp1, ht1⟩ := Prod.mk.injEq .. ▸ Option.some.inj h
      rcases buy_cases port price sh pm hb with ⟨hsh, hpm⟩ | hshares
      · rw [← hp1, ← ht1, hpm, hsh]
        constructor
        · simpa [hpm] using halt
        · left; simp
      · rw [← hp1, ← ht1, hshares, hsh0]
        by_cases hpos : 0 < sh
        · rw [if_pos hpos, altRun_append, halt]
          have hfalse : decide (port.shares ≤ 0) = true := by simp [hsh0]
          rw [hfalse]
          constructor
          · simp [not_le.mpr hpos]
          · right; exact ⟨⟨i, "BUY", price, sh⟩, rfl, rfl⟩
        · rw [if_neg hpos]
          constructor
          · have : decide ((0 : ℤ) + sh ≤ 0) = true := by
              simp; omega
            rw [this, halt]
            simp [hsh0]
          · left; rfl
  · obtain ⟨hsig, hsh⟩ := h2
    rw [sell_eq] at h
    obtain ⟨hp1, ht1⟩ := Prod.mk.injEq .. ▸ Option.some.inj h
    rw [← hp1, ← ht1, if_pos hsh, altRun_append, halt]
    have hfalse : decide (port.shares ≤ 0) = false := by simp [not_le.mpr hsh]
    rw [hfalse]
    constructor
    · simp
    · right; exact ⟨⟨i, "SELL", price, port.shares⟩, rfl, rfl⟩
  · obtain ⟨hp1, ht1⟩ := Prod.mk.injEq .. ▸ Option.some.inj h
    rw [← hp1, ← ht1]
    exact ⟨halt, Or.inl rfl⟩

/-- The daily loop preserves the alternation invariant together with the
chronological ordering of the log and the bound on its bar indices. -/
lemma runSimLoop_chrono (bars : List (ℚ × Int)) :
    ∀ (port : PortfolioState) (trades : List Trade) (values : List ℚ) (i : Nat)
      (p1 : PortfolioState) (t1 : List Trade) (v1 : List ℚ),
      altRun true trades = some (decide (port.shares ≤ 0)) →
      List.Pairwise (fun a b => a.date ≤ b.date) trades →
      (∀ t ∈ trades, t.date < i) →
      runSimLoop port trades values i bars = some (p1, t1, v1) →
      altRun true t1 = some (decide (p1.shares ≤ 0)) ∧
      List.Pairwise (fun a b => a.date ≤ b.date) t1 ∧
      (∀ t ∈ t1, t.date < i + bars.length) := by
  induction bars with
  | nil =>
    intro port trades values i p1 t1 v1 halt hpw hdt h
    simp only [runSimLoop, Option.some.injEq, Prod.mk.injEq] at h
    obtain ⟨h1, h2, -⟩ := h
    subst h2
    rw [← h1]
    exact ⟨halt, hpw, by simpa using hdt⟩
  | cons b bs ih =>
    intro port trades values i p1 t1 v1 halt hpw hdt h
    obtain ⟨price, signal⟩ := b
    rw [runSimLoop] at h
    cases hst : simStep port trades i price signal with
    | none => rw [hst] at h; exact Option.noConfusion h
    | some pt =>
      obtain ⟨pm, tm⟩ := pt
      rw [hst] at h
      obtain ⟨halt1, hcase⟩ := simStep_alt port trades i price signal pm tm halt hst
      have hpw1 : List.Pairwise (fun a b => a.date ≤ b.date) tm := by
        rcases hcase with rfl | ⟨t, hti, rfl⟩
        · exact hpw
        · rw [List.pairwise_append]
          exact ⟨hpw, List.pairwise_singleton _ _,
            fun a ha b hb => by
              simp only [List.mem_singleton] at hb
              subst hb
              rw [hti]
              exact le_of_lt (hdt a ha)⟩
      have hdt1 : ∀ t ∈ tm, t.date < i + 1 := by
        rcases hcase with rfl | ⟨t, hti, rfl⟩
        · exact fun t ht => Nat.lt_succ_of_lt (hdt t ht)
        · intro u hu
          rcases List.mem_append.mp hu with hu | hu
          · exact Nat.lt_succ_of_lt (hdt u hu)
          · simp only [List.mem_singleton] at hu
            subst hu
            omega
      have := ih pm tm _ (i + 1) p1 t1 v1 halt1 hpw1 hdt1 h
      refine ⟨this.1, this.2.1, fun t ht => ?_⟩
      have := this.2.2 t ht
      simp only [List.length_cons]
      omega

/-- The forced-liquidation step keeps the log alternating and ordered: it
appends a sell-labelled trade only when a position is held, in which case
the expectation after the log was a SELL, and the appended bar index is
the last one. -/
lemma forcedLiq_chrono (closes : List ℚ) (port : PortfolioState) (trades : List Trade)
    (lbl : String) (hl : lbl = "SELL" ∨ lbl = "SELL (end)")
    (halt : altRun true trades = some (decide (port.shares ≤ 0)))
    (hpw : List.Pairwise (fun a b => a.date ≤ b.date) trades)
    (hdt : ∀ t ∈ trades, t.date < closes.length) :
    (altRun true (forcedLiq closes port trades lbl).2).isSome = true ∧
    List.Pairwise (fun a b => a.date ≤ b.date) (forcedLiq closes port trades lbl).2 := by
  unfold forcedLiq
  split_ifs with hsh
  · simp only [sell_eq]
    constructor
    · rw [altRun_append, halt]
      have hf : decide (port.shares ≤ 0) = false := by simp [not_le.mpr hsh]
      rw [hf]
      rcases hl with rfl | rfl <;> simp
    · rw [List.pairwise_append]
      refine ⟨hpw, List.pairwise_singleton _ _, ?_⟩
      intro a ha b hb
      simp only [List.mem_singleton] at hb
      subst hb
      have := hdt a ha
      simp only []
      omega
  · exact ⟨by rw [halt]; rfl, hpw⟩

/-- C7: in every completed `backtest_strategy` run the trade log alternates
strictly, starting with a BUY when nonempty (the `altRun` automaton accepts
it), and is chronologically ordered by bar index; moreover a step logs a
BUY only from a flat position and a SELL only from a held position, and the
forced-liquidation trade is appended only when shares are held. -/
theorem C7_alternation :
    (∀ (closes : List ℚ) (strategy : String) (sc : ℚ) (r : BacktestResult),
      backtest_strategy closes strategy sc = .ok (some r) →
      (altRun true r.trades).isSome = true ∧
      List.Pairwise (fun a b => a.date ≤ b.date) r.trades ∧
      (∀ t ts, r.trades = t :: ts → t.action = "BUY")) ∧
    (∀ (port : PortfolioState) (trades : List Trade) (i : Nat) (price : ℚ)
      (signal : Int) (port1 : PortfolioState) (t : Trade),
      simStep port trades i price signal = some (port1, trades ++ [t]) →
      (t.action = "BUY" → port.shares = 0) ∧
      (t.action = "SELL" → 0 < port.shares)) ∧
    (∀ (closes : List ℚ) (port : PortfolioState) (trades : List Trade)
      (lbl : String) (t : Trade),
      (forcedLiq closes port trades lbl).2 = trades ++ [t] → 0 < port.shares) := by
  refine ⟨?_, ?_, ?_⟩
  · intro closes strategy sc r hb
    rw [backtest_strategy] at hb
    by_cases hemp : closes.length = 0
    · rw [if_pos hemp] at hb
      exact absurd hb (by simp)
    · rw [if_neg hemp] at hb
      cases hgen : generate_signals closes strategy with
      | none => rw [hgen] at hb; exact absurd hb (by simp)
      | some signals =>
        rw [hgen] at hb
        dsimp only at hb
        cases hloop : runSimLoop ⟨sc, 0, sc⟩ [] [] 0 (closes.zip signals) with
        | none => rw [hloop] at hb; exact absurd hb (by simp)
        | some res =>
          obtain ⟨port1, trades1, values1⟩ := res
          rw [hloop] at hb
          dsimp only at hb
          obtain ⟨halt1, hpw1, hdt1⟩ := runSimLoop_chrono (closes.zip signals)
            ⟨sc, 0, sc⟩ [] [] 0 port1 trades1 values1 rfl List.Pairwise.nil
            (by simp) hloop
          have hdt1b : ∀ t ∈ trades1, t.date < closes.length := by
            intro t ht
            have h1 := hdt1 t ht
            have h2 : (closes.zip signals).length ≤ closes.length := by
              rw [List.length_zip]
              exact min_le_left _ _
            omega
          obtain ⟨hfa, hfp⟩ := forcedLiq_chrono closes port1 trades1 "SELL (end)"
            (Or.inr rfl) halt1 hpw1 hdt1b
          rcases hq : forcedLiq closes port1 trades1 "SELL (end)" with ⟨port2, trades2⟩
          rw [hq] at hb
          dsimp only at hb
          by_cases hsc0 : sc = 0
          · rw [if_pos hsc0] at hb
            exact absurd hb (by simp)
          · rw [if_neg hsc0] at hb
            have h2 := Option.some.inj (Except.ok.inj hb)
            have hr : r.trades = trades2 := by rw [← h2]
            rw [hq] at hfa hfp
            rw [hr]
            refine ⟨hfa, hfp, ?_⟩
            intro t ts hts
            exact altRun_head t ts (by rw [← hts]; exact hfa)
  · intro port trades i price signal port1 t h
    unfold simStep at h
    split_ifs at h with h1 h2
    · obtain ⟨hsig, hsh0⟩ := h1
      cases hb : port.buy price with
      | none => rw [hb] at h; exact Option.noConfusion h
      | some pr =>
        obtain ⟨sh, pm⟩ := pr
        rw [hb] at h
        obtain ⟨-, ht⟩ := Prod.mk.injEq .. ▸ Option.some.inj h
        by_cases hpos : 0 < sh
        · rw [if_pos hpos] at ht
          have ht2 : (⟨i, "BUY", price, sh⟩ : Trade) = t := by
            have := List.append_cancel_left ht
            simpa using this
          rw [← ht2]
          exact ⟨fun _ => hsh0, fun hc => absurd hc (by simp)⟩
        · rw [if_neg hpos] at ht
          exact absurd ht (by simp)
    · obtain ⟨hsig, hsh⟩ := h2
      rw [sell_eq] at h
      obtain ⟨-, ht⟩ := Prod.mk.injEq .. ▸ Option.some.inj h
      rw [if_pos hsh] at ht
      have ht2 : (⟨i, "SELL", price, port.shares⟩ : Trade) = t := by
        have := List.append_cancel_left ht
        simpa using this
      rw [← ht2]
      exact ⟨fun hc => absurd hc (by simp), fun _ => hsh⟩
    · obtain ⟨-, ht⟩ := Prod.mk.injEq .. ▸ Option.some.inj h
      exact absurd ht (by simp)
  · intro closes port trades lbl t h
    unfold forcedLiq at h
    split_ifs at h with hsh
    · exact hsh
    · exact absurd h (by simp)

/-- Witness for C7 on a concrete completed run. -/
theorem C7_witness :
    (altRun true [⟨0, "BUY", 10, 10⟩, ⟨4, "SELL", 8, 10⟩]).isSome = true ∧
    List.Pairwise (fun a b => a.date ≤ b.date)
      [(⟨0, "BUY", 10, 10⟩ : Trade), ⟨4, "SELL", 8, 10⟩] := by
  have h := C7_alternation.1 [10, 11, 9, 12, 8] "buy_and_hold" 100
    ⟨100, 80, -20, 2, [⟨0, "BUY", 10, 10⟩, ⟨4, "SELL", 8, 10⟩]⟩
    (by norm_num [backtest_strategy, generate_signals, runSimLoop, simStep,
      PortfolioState.buy, PortfolioState.sell, PortfolioState.total_value, forcedLiq])
  exact ⟨h.1, h.2.1⟩

/-- Counterexample for C3 as stated: a completed `buy_and_hold` run with
starting cash -100 ends still holding -10 shares, which the forced
liquidation (guarded by shares > 0) never sells, so the run does not end
with shares == 0, and its final cash 0 differs from the final
mark-to-market value -200. -/
theorem C3_counterexample :
    generate_signals [(10 : ℚ), 20] "buy_and_hold" = some [1, -1] ∧
    runSimLoop ⟨-100, 0, -100⟩ [] [] 0 ([(10 : ℚ), 20].zip [1, -1]) =
      some (⟨0, -10, -100⟩, [], [-100, -200]) ∧
    forcedLiq [10, 20] ⟨0, -10, -100⟩ [] "SELL (end)" = (⟨0, -10, -100⟩, []) ∧
    ¬ ((⟨0, -10, -100⟩ : PortfolioState).shares = 0) := by
  refine ⟨by simp [generate_signals], ?_, ?_, by decide⟩
  · norm_num [runSimLoop, simStep, PortfolioState.buy, PortfolioState.total_value]
  · norm_num [forcedLiq]

/-- Stepping by two from `s` enumerates `s + 2k`. -/
lemma range'_step_two (n : Nat) :
    ∀ s : Nat, List.range' s n 2 = (List.range n).map (fun k => s + 2 * k) := by
  induction n with
  | zero => intro s; rfl
  | succ m ih =>
    intro s
    rw [List.range'_succ, ih (s + 2), List.range_succ_eq_map, List.map_cons,
      List.map_map]
    refine congrArg₂ List.cons (by omega) (List.map_congr_left ?_)
    intro k _
    simp only [Function.comp_apply, Nat.succ_eq_add_one]
    omega

/-- A filterMap whose function always produces a value is a map. -/
lemma filterMap_all_some {α β : Type} (g : α → Option β) (h : α → β) :
    ∀ l : List α, (∀ x ∈ l, g x = some (h x)) → l.filterMap g = l.map h := by
  intro l
  induction l with
  | nil => intro _; rfl
  | cons a as ih =>
    intro hall
    rw [List.filterMap_cons, hall a (by simp), List.map_cons,
      ih (fun x hx => hall x (by simp [hx]))]

/-- The win list pairs exactly the first `len / 2` disjoint (entry, exit)
index pairs of the log: the redundant in-range check always holds. -/
lemma profitPairs_eq (trades : List Trade) :
    profitPairs trades = (List.range (trades.length / 2)).map (fun k =>
      decide ((trades.getD (2 * k) default).price <
        (trades.getD (2 * k + 1) default).price)) := by
  unfold profitPairs
  have hc : (trades.length - 1 + 1) / 2 = trades.length / 2 := by omega
  rw [hc, range'_step_two, List.filterMap_map]
  refine filterMap_all_some _ _ _ ?_
  intro k hk
  have hk2 : k < trades.length / 2 := List.mem_range.mp hk
  simp only [Function.comp_apply, Nat.zero_add]
  rw [if_pos (by omega : 2 * k + 1 < trades.length)]

/-- C9: the win rate of `calculate_metrics` coincides with the claim-side
pairing definition, is 0 below two trades, and always lies in [0, 100]. -/
theorem C9_win_rate (trades : List Trade) :
    winRate trades = winRateSpec trades ∧
    0 ≤ winRate trades ∧ winRate trades ≤ 100 ∧
    (trades.length < 2 → winRate trades = 0) := by
  by_cases hlen : 2 ≤ trades.length
  · set pairs := trades.length / 2 with hpairs
    set p := fun k => decide ((trades.getD (2 * k) default).price <
      (trades.getD (2 * k + 1) default).price) with hp
    have hprofits : profitPairs trades = (List.range pairs).map p := profitPairs_eq trades
    have hlenp : (profitPairs trades).length = pairs := by
      rw [hprofits]; simp
    have hpos : 0 < pairs := by omega
    have hne : profitPairs trades ≠ [] := by
      intro hcon
      rw [hcon] at hlenp
      simp at hlenp
      omega
    have hcount : (profitPairs trades).count true =
        ((List.range pairs).filter p).length := by
      rw [hprofits, List.count_eq_countP, List.countP_map,
        List.countP_eq_length_filter]
      congr 1
      refine List.filter_congr ?_
      intro k _
      simp [Function.comp]
    have hwr : winRate trades =
        ((((List.range pairs).filter p).length : ℚ) / (pairs : ℚ)) * 100 := by
      rw [winRate, if_pos hlen, if_pos hne, hcount, hlenp]
    have hspec : winRateSpec trades =
        ((((List.range pairs).filter p).length : ℚ) / (pairs : ℚ)) * 100 := by
      rw [winRateSpec, if_pos hlen]
    have hcle : ((List.range pairs).filter p).length ≤ pairs := by
      have := List.length_filter_le p (List.range pairs)
      simpa using this
    have hposq : (0 : ℚ) < (pairs : ℚ) := by exact_mod_cast hpos
    refine ⟨by rw [hwr, hspec], ?_, ?_, fun hcon => absurd hlen (by omega)⟩
    · rw [hwr]
      positivity
    · rw [hwr]
      have hdiv : (((List.range pairs).filter p).length : ℚ) / (pairs : ℚ) ≤ 1 := by
        rw [div_le_one hposq]
        exact_mod_cast hcle
      nlinarith
  · have hz : winRate trades = 0 := by rw [winRate, if_neg hlen]
    have hzs : winRateSpec trades = 0 := by rw [winRateSpec, if_neg hlen]
    rw [hz, hzs]
    norm_num

/-- Witness for C9 on a concrete five-trade log: pairs (10, 12) and (9, 8),
one win out of two, an unpaired trailing trade ignored. -/
theorem C9_witness :
    winRate [⟨0, "BUY", 10, 1⟩, ⟨1, "SELL", 12, 1⟩, ⟨2, "BUY", 9, 1⟩,
      ⟨3, "SELL", 8, 1⟩, ⟨4, "BUY", 7, 1⟩] =
    winRateSpec [⟨0, "BUY", 10, 1⟩, ⟨1, "SELL", 12, 1⟩, ⟨2, "BUY", 9, 1⟩,
      ⟨3, "SELL", 8, 1⟩, ⟨4, "BUY", 7, 1⟩] :=
  (C9_win_rate _).1

lemma fmin_fin (a b : ℚ) : fmin (.fin a) (.fin b) = .fin (min a b) := by
  rw [min_def]
  rfl

/-- Folding the float minimum over finite cells is the rational minimum. -/
lemma foldl_fmin_fin (g : Nat → ℚ) :
    ∀ (ks : List Nat) (a : ℚ),
      ((ks.map (fun t => FloatQ.fin (g t))).foldl fmin (FloatQ.fin a)) =
        FloatQ.fin (ks.foldl (fun acc t => min acc (g t)) a) := by
  intro ks
  induction ks with
  | nil => intro a; rfl
  | cons k ks ih =>
    intro a
    simp only [List.map_cons, List.foldl_cons, fmin_fin]
    exact ih (min a (g k))

/-- A drawdown cell with a nonzero running peak is the finite percentage. -/
lemma drawdownAt_fin (vals : List ℚ) (t : Nat) (h : peakAt vals t ≠ 0) :
    drawdownAt vals t =
      .fin ((vals.getD t 0 - peakAt vals t) / peakAt vals t * 100) := by
  rw [drawdownAt]
  rw [if_pos h]

/-- C2 (amended): the drawdown computation has no zero-peak guard — at an
index whose running peak is 0 the cell is NaN when the value is 0 there
(and a signed infinity otherwise), never the claimed 0; no exception is
raised.  Where every running peak is nonzero, `max_drawdown_pct` is the
minimum over all indices of `(value - peak) / peak * 100` as claimed. -/
theorem C2_max_drawdown (vals : List ℚ) :
    (∀ t, t < vals.length → peakAt vals t = 0 →
      drawdownAt vals t =
        (if vals.getD t 0 = 0 then FloatQ.nan
         else if vals.getD t 0 < 0 then FloatQ.ninf else FloatQ.pinf)) ∧
    ((∀ t, t < vals.length → peakAt vals t ≠ 0) →
      maxDrawdown vals =
        (((List.range vals.length).map (fun t =>
          (vals.getD t 0 - peakAt vals t) / peakAt vals t * 100)).min?).map
          FloatQ.fin) := by
  constructor
  · intro t _ hz
    rw [drawdownAt]
    rw [hz]
    simp
  · intro hnz
    cases hnn : List.range vals.length with
    | nil =>
      rw [maxDrawdown, hnn]
      simp
    | cons k ks =>
      have hmem : ∀ t ∈ (k :: ks), peakAt vals t ≠ 0 := by
        intro t ht
        exact hnz t (List.mem_range.mp (hnn ▸ ht))
      have hmap : (k :: ks).map (drawdownAt vals) =
          (k :: ks).map (fun t =>
            FloatQ.fin ((vals.getD t 0 - peakAt vals t) / peakAt vals t * 100)) :=
        List.map_congr_left (fun t ht => drawdownAt_fin vals t (hmem t ht))
      rw [maxDrawdown, hnn, hmap]
      simp only [List.map_cons]
      rw [foldl_fmin_fin, List.min?_cons', List.foldl_map]
      rfl

/-- Counterexample for C2 as stated: the singleton value series [0] has a
zero running peak at index 0, and the computed drawdown there is NaN (the
float 0/0), not 0; the minimum is then NaN as well. -/
theorem C2_counterexample :
    maxDrawdown [0] = some FloatQ.nan ∧ drawdownAt [0] 0 = FloatQ.nan ∧
    FloatQ.nan ≠ FloatQ.fin 0 := by
  have hd : drawdownAt [0] 0 = FloatQ.nan := by
    rw [drawdownAt]
    norm_num [peakAt]
  refine ⟨?_, hd, by decide⟩
  rw [maxDrawdown]
  simp [List.range_succ, hd]

/-- Witness for C2 on the series [100, 80]: both running peaks are 100,
and the drawdown minimum is -20 percent. -/
theorem C2_witness : maxDrawdown [100, 80] = some (FloatQ.fin (-20)) := by
  have h := (C2_max_drawdown [100, 80]).2 (by
    intro t ht
    simp only [List.length_cons, List.length_nil] at ht
    interval_cases t <;> decide)
  rw [h]
  norm_num [List.range_succ, peakAt, List.min?_cons', min_def]

/-- On a strictly increasing close series every defined delta is positive. -/
lemma delta_pos_of_chain (closes : List ℚ) (hmono : List.Chain' (· < ·) closes) :
    ∀ i, 1 ≤ i → i < closes.length → ∃ d, deltaAt closes i = some d ∧ 0 < d := by
  intro i h1 hn
  have hprev : i - 1 < closes.length := by omega
  have hstep := List.chain'_iff_get.mp hmono (i - 1) (by omega)
  have hidx : i - 1 + 1 = i := by omega
  simp only [hidx] at hstep
  refine ⟨closes.get ⟨i, hn⟩ - closes.get ⟨i - 1, hprev⟩, ?_, by linarith⟩
  rw [deltaAt, if_neg (by omega : ¬ i = 0),
    List.get?_eq_get hn, List.get?_eq_get hprev]

/-- On a strictly increasing series every defined loss entry is zero. -/
lemma loss_zero_of_chain (closes : List ℚ) (hmono : List.Chain' (· < ·) closes) :
    ∀ i, 1 ≤ i → i < closes.length → lossAt closes i = some 0 := by
  intro i h1 hn
  obtain ⟨d, hd, hdp⟩ := delta_pos_of_chain closes hmono i h1 hn
  rw [lossAt, hd]
  show some (|if d > 0 then 0 else d|) = some 0
  rw [if_pos hdp]
  simp

/-- On a strictly increasing series every defined gain entry is positive. -/
lemma gain_pos_of_chain (closes : List ℚ) (hmono : List.Chain' (· < ·) closes) :
    ∀ i, 1 ≤ i → i < closes.length → ∃ d, gainAt closes i = some d ∧ 0 < d := by
  intro i h1 hn
  obtain ⟨d, hd, hdp⟩ := delta_pos_of_chain closes hmono i h1 hn
  refine ⟨d, ?_, hdp⟩
  rw [gainAt, hd]
  show some (if d < 0 then 0 else d) = some d
  rw [if_neg (not_lt.mpr hdp.le)]

/-- On a strictly increasing series the average loss is zero at every
index where it is defined. -/
lemma avgLoss_zero_of_chain (closes : List ℚ) (hmono : List.Chain' (· < ·) closes) :
    ∀ i, 14 ≤ i → i < closes.length → avgLossAt closes i = some 0 := by
  intro i h14 hn
  rw [avgLossAt, rollingMeanAt, if_pos ⟨by omega, hn⟩]
  have hw : (List.range 14).map (fun k => lossAt closes (i + 1 - 14 + k)) =
      List.replicate 14 (some (0 : ℚ)) := by
    refine List.eq_replicate.mpr ⟨by simp, ?_⟩
    intro b hb
    rcases List.mem_map.mp hb with ⟨k, hk, rfl⟩
    have hk14 := List.mem_range.mp hk
    exact loss_zero_of_chain closes hmono _ (by omega) (by omega)
  rw [hw]
  norm_num [List.all_eq_true, List.mem_replicate]

/-- On a strictly increasing series the average gain is positive at every
index of the form the RSI loop inspects. -/
lemma avgGain_pos_of_chain (closes : List ℚ) (hmono : List.Chain' (· < ·) closes) :
    ∀ i, 14 ≤ i → i < closes.length → ∃ g, avgGainAt closes i = some g ∧ 0 < g := by
  intro i h14 hn
  rw [avgGainAt, rollingMeanAt, if_pos ⟨by omega, hn⟩]
  have hmem : ∀ w ∈ (List.range 14).map (fun k => gainAt closes (i + 1 - 14 + k)),
      ∃ d, w = some d ∧ 0 < d := by
    intro w hw
    rcases List.mem_map.mp hw with ⟨k, hk, rfl⟩
    have hk14 := List.mem_range.mp hk
    exact gain_pos_of_chain closes hmono _ (by omega) (by omega)
  have hall : ((List.range 14).map (fun k => gainAt closes (i + 1 - 14 + k))).all
      Option.isSome = true := by
    rw [List.all_eq_true]
    intro w hw
    obtain ⟨d, rfl, -⟩ := hmem w hw
    rfl
  rw [if_pos hall]
  refine ⟨_, rfl, ?_⟩
  refine div_pos ?_ (by norm_num)
  refine List.sum_pos _ ?_ ?_
  · intro x hx
    rcases List.mem_map.mp hx with ⟨w, hw, rfl⟩
    obtain ⟨d, rfl, hd⟩ := hmem w hw
    simpa using hd
  · exact List.ne_nil_of_length_pos (by simp)

/-- On a strictly increasing series the RSI cell is pinned at 100 at every
index of the RSI loop: the zero average loss sends the quotient to an
infinity, not to a division fault. -/
lemma rsi_100_of_chain (closes : List ℚ) (hmono : List.Chain' (· < ·) closes) :
    ∀ i, 14 ≤ i → i < closes.length → rsiAt closes i = some 100 := by
  intro i h14 hn
  obtain ⟨g, hg, hgp⟩ := avgGain_pos_of_chain closes hmono i h14 hn
  rw [rsiAt, hg, avgLoss_zero_of_chain closes hmono i h14 hn]
  dsimp only
  rw [if_neg (by norm_num : ¬ ((0 : ℚ) ≠ 0)), if_pos (ne_of_gt hgp)]

/-- A defined RSI cell can only sit at an index the RSI loop inspects. -/
lemma rsi_defined (closes : List ℚ) :
    ∀ i x, rsiAt closes i = some x → 14 ≤ i ∧ i < closes.length := by
  intro i x h
  rw [rsiAt] at h
  cases hG : avgGainAt closes i with
  | none => rw [hG] at h; simp at h
  | some g =>
    cases hL : avgLossAt closes i with
    | none => rw [hG, hL] at h; simp at h
    | some l =>
      rw [avgLossAt, rollingMeanAt] at hL
      by_cases hguard : 14 ≤ i + 1 ∧ i < closes.length
      · rw [if_pos hguard] at hL
        by_cases hall : ((List.range 14).map (fun k =>
            lossAt closes (i + 1 - 14 + k))).all Option.isSome = true
        · have h0 : (lossAt closes (i + 1 - 14)).isSome = true := by
            have hm : lossAt closes (i + 1 - 14 + 0) ∈
                (List.range 14).map (fun k => lossAt closes (i + 1 - 14 + k)) :=
              List.mem_map.mpr ⟨0, by simp, rfl⟩
            have hx := List.all_eq_true.mp hall _ hm
            simpa using hx
          rw [lossAt] at h0
          cases hD : deltaAt closes (i + 1 - 14) with
          | none => rw [hD] at h0; simp at h0
          | some d =>
            rw [deltaAt] at hD
            by_cases hz : i + 1 - 14 = 0
            · rw [if_pos hz] at hD
              exact Option.noConfusion hD
            · exact ⟨by omega, hguard.2⟩
        · rw [if_neg hall] at hL
          exact Option.noConfusion hL
      · rw [if_neg hguard] at hL
        exact Option.noConfusion hL

/-- C8: on strictly increasing closes of length at least 15 the average
loss is 0 at every defined index, the RSI is 100 at every inspected index
and wherever defined (reached through infinity arithmetic, never a
division fault), and the RSI strategy emits no BUY signal anywhere. -/
theorem C8_rsi_monotone (closes : List ℚ)
    (hmono : List.Chain' (· < ·) closes) (hlen : 15 ≤ closes.length) :
    (∀ i, 14 ≤ i → i < closes.length → avgLossAt closes i = some 0) ∧
    (∀ i, 14 ≤ i → i < closes.length → rsiAt closes i = some 100) ∧
    (∀ i x, rsiAt closes i = some x → x = 100) ∧
    (∀ i s, (rsiSignals closes).get? i = some s → s ≠ 1) := by
  refine ⟨avgLoss_zero_of_chain closes hmono, rsi_100_of_chain closes hmono, ?_, ?_⟩
  · intro i x h
    obtain ⟨h14, hn⟩ := rsi_defined closes i x h
    have h100 := rsi_100_of_chain closes hmono i h14 hn
    rw [h100] at h
    exact (Option.some.inj h).symm
  · intro i s hget
    have hi : i < closes.length := by
      obtain ⟨hh, -⟩ := List.get?_eq_some.mp hget
      simpa [rsiSignals] using hh
    rw [rsiSignals, range_map_get? _ _ _ hi] at hget
    obtain h := Option.some.inj hget
    by_cases h14 : 14 ≤ i
    · rw [if_pos h14] at h
      have hrsi := rsi_100_of_chain closes hmono i h14 hi
      rw [hrsi] at h
      dsimp only at h
      have hlt : oltB (some (100 : ℚ)) (some 30) = false := by decide
      rw [hlt, Bool.and_false] at h
      simp only [Bool.false_eq_true, if_false] at h
      split_ifs at h <;> omega
    · rw [if_neg h14] at h
      omega

/-- Witness for C8 on fifteen strictly increasing closes. -/
theorem C8_witness :
    avgLossAt [1, 2, 3, 4, 5, 6, 7, 8, 9, 10, 11, 12, 13, 14, 15] 14 = some 0 ∧
    rsiAt [1, 2, 3, 4, 5, 6, 7, 8, 9, 10, 11, 12, 13, 14, 15] 14 = some 100 := by
  have h := C8_rsi_monotone [1, 2, 3, 4, 5, 6, 7, 8, 9, 10, 11, 12, 13, 14, 15]
    (by norm_num [List.chain'_cons]) (by decide)
  exact ⟨h.1 14 (by decide) (by decide), h.2.1 14 (by decide) (by decide)⟩
